import Mathlib

/-!
Verification of the Poisson-disk test harness (`poisson/tests/helper/mod.rs` and
`poisson/tests/validity.rs`).

The harness drives a Poisson-disk point generator, collects its output and checks
three contracts: pairwise minimum distance (after periodic tiling), size-hint
consistency of the consumed iterator, and containment of emitted points in the
unit box.  Scalars (`f64` in the source) are embedded as `ℚ`; a point of the
`d`-dimensional vector type `T : Vector<F>` is embedded as `Fin d → ℚ`.
Assertion failures (`assert!` / `panic!` in the source) are embedded as values of
an explicit `Failure` type carried by `Except`.
-/

/-- A point of the fixed-dimension vector space (`T : Vector<F>` in the source). -/
abbrev Point (d : ℕ) := Fin d → ℚ

/-- Embedding of `poisson::Type` (the domain type): `Normal` is the bounded unit
box, `Perioditic` (source spelling) the toroidal domain. -/
inductive PoissonType where
  | Normal
  | Perioditic
deriving DecidableEq

/-- Embedding of the two algorithm families `algorithm::{Ebeida, Bridson}`; the
harness only uses them as identity tags in failure messages. -/
inductive Algo where
  | Ebeida
  | Bridson
deriving DecidableEq

/-- Embedding of `helper::When`, the prefill-legality expectation. -/
inductive When where
  | Always
  | Sometimes
  | Never
deriving DecidableEq

/-- The squared Euclidean norm of the difference `v1 - v2`; the source computes
`(v1 - v2).norm()` (the square root of this quantity) in `f64`. -/
def distSq {d : ℕ} (v1 v2 : Point d) : ℚ := ∑ i, (v1 i - v2 i) ^ 2

/-- Exact embedding of the comparison `dist > b` where `dist = sqrt q` and
`q ≥ 0`: it holds when `b` is negative (a nonnegative root always exceeds a
negative bound) or when `b ^ 2 < q`. -/
def norm_gt (q b : ℚ) : Bool := decide (b < 0) || decide (b ^ 2 < q)

/-- The assertion failures the harness can raise.  Each constructor records the
data interpolated into the corresponding `assert!`/`panic!` message in the
source: the algorithm identity, positions, bounds, and offending points.  For a
distance violation the measured distance is reported via its square `dsq`
(the source prints `sqrt dsq`), together with the threshold `radius * 2`. -/
inductive Failure (d : ℕ) where
  | missingHint (algo : Algo) (pos : ℕ)
  | lowerBound (algo : Algo) (low remaining : ℕ)
  | upperBound (algo : Algo) (high remaining : ℕ)
  | outOfRangeLow (v : Point d) (n : Fin d)
  | outOfRangeHigh (v : Point d) (n : Fin d)
  | distance (algo : Algo) (dsq threshold : ℚ) (v1 v2 : Point d)
  | prefillRejected (algo : Algo) (p : Point d)
  | prefillAccepted (algo : Algo) (p : Point d) (last : Option (Point d))
deriving DecidableEq

/-- Inner loop of `assert_legal_poisson`: for a fixed `v1`, scan `v2` over the
whole list, skipping equal points, and fail on the first pair at distance
`≤ radius * 2`. -/
def legal_inner {d : ℕ} (radius : ℚ) (algo : Algo) (v1 : Point d) :
    List (Point d) → Except (Failure d) Unit
  | [] => .ok ()
  | v2 :: rest =>
    if v1 = v2 then legal_inner radius algo v1 rest
    else if norm_gt (distSq v1 v2) (radius * 2) then legal_inner radius algo v1 rest
    else .error (.distance algo (distSq v1 v2) (radius * 2) v1 v2)

/-- Outer loop of `assert_legal_poisson`: scan `v1` over the list, running the
inner loop against the full list `all` each time. -/
def legal_outer {d : ℕ} (radius : ℚ) (algo : Algo) (all : List (Point d)) :
    List (Point d) → Except (Failure d) Unit
  | [] => .ok ()
  | v1 :: rest =>
    match legal_inner radius algo v1 all with
    | .ok () => legal_outer radius algo all rest
    | .error f => .error f

/-- Embedding of `helper::assert_legal_poisson(vecs, radius, algo)`: for every
ordered pair from `vecs`, skip equal points and assert
`(v1 - v2).norm() > radius * 2`. -/
def assert_legal_poisson {d : ℕ} (vecs : List (Point d)) (radius : ℚ) (algo : Algo) :
    Except (Failure d) Unit :=
  legal_outer radius algo vecs vecs

/-- The offset vector produced for index `n` in the periodic-tiling loop of
`test_poisson`: component `i` is `(n / 3^i) % 3 - 1`, i.e. the `i`-th base-3
digit of `n` shifted into `{-1, 0, 1}` (the source computes the digits with a
running `div /= 3`). -/
def tileOffset (d : ℕ) (n : ℕ) : Point d := fun i => ((n / 3 ^ (i : ℕ) % 3 : ℕ) : ℚ) - 1

/-- The periodic tiling of `test_poisson`: for each `n < 3^d` (outer loop) add
the offset vector of `n` to every collected point (inner loop). -/
def tile (d : ℕ) (vecs : List (Point d)) : List (Point d) :=
  (List.range (3 ^ d)).flatMap fun n => vecs.map fun v => v + tileOffset d n

/-- The `match poisson_type` in `test_poisson` selecting the set handed to
`assert_legal_poisson`: the tiled set for `Perioditic`, the original set for
`Normal`. -/
def expandForValidation (d : ℕ) (ptype : PoissonType) (vecs : List (Point d)) :
    List (Point d) :=
  match ptype with
  | .Perioditic => tile d vecs
  | .Normal => vecs

/-- Collection loop of `test_poisson`: each successful `iter.next()` is paired
with the `iter.size_hint()` sampled right after it; a hint with no upper bound
on element `k` panics naming `k` (the number of hints recorded so far) and the
algorithm. -/
def collectLoop {d : ℕ} (algo : Algo) :
    ℕ → List (Point d × ℕ × Option ℕ) → Except (Failure d) (List (Point d) × List (ℕ × ℕ))
  | _, [] => .ok ([], [])
  | k, (v, low, some high) :: rest =>
    match collectLoop algo (k + 1) rest with
    | .ok (vs, hs) => .ok (v :: vs, (low, high) :: hs)
    | .error f => .error f
  | k, (_, _, none) :: _ => .error (.missingHint algo k)

/-- Bound-checking loop of `test_poisson`: for the `n`-th recorded hint,
`remaining = len - (n + 1)`; assert `low ≤ remaining` then `high ≥ remaining`. -/
def checkBounds {d : ℕ} (algo : Algo) (len : ℕ) :
    ℕ → List (ℕ × ℕ) → Except (Failure d) Unit
  | _, [] => .ok ()
  | n, (low, high) :: rest =>
    let remaining := len - (n + 1)
    if low ≤ remaining then
      if high ≥ remaining then checkBounds algo len (n + 1) rest
      else .error (.upperBound algo high remaining)
    else .error (.lowerBound algo low remaining)

/-- The size-hint audit as a unit: hint collection followed by the bound
checks, with `len` the number of recorded hints. -/
def sizeHintAudit {d : ℕ} (pulls : List (Point d × ℕ × Option ℕ)) (algo : Algo) :
    Except (Failure d) Unit :=
  match collectLoop algo 0 pulls with
  | .error f => .error f
  | .ok (_, hints) => checkBounds algo hints.length 0 hints

/-- Per-point containment loop of `test_poisson`: for `n` in `0..dimension`,
assert `v[n] ≥ 0` then `v[n] < 1`. -/
def containment_point {d : ℕ} (v : Point d) : List (Fin d) → Except (Failure d) Unit
  | [] => .ok ()
  | n :: rest =>
    if 0 ≤ v n then
      if v n < 1 then containment_point v rest
      else .error (.outOfRangeHigh v n)
    else .error (.outOfRangeLow v n)

/-- Containment check of `test_poisson`, run only when `does_prefill` is false:
every collected point must lie in the unit box on every axis. -/
def containment_check {d : ℕ} : List (Point d) → Except (Failure d) Unit
  | [] => .ok ()
  | v :: rest =>
    match containment_point v (List.finRange d) with
    | .ok () => containment_check rest
    | .error f => .error f

/-- Embedding of `helper::test_poisson(poisson, radius, poisson_type, algo,
does_prefill)`.  The consumed iterator is embedded as the list of its successful
pulls, each paired with the size hint sampled right after the pull.  Stages in
source order: hint collection (with the missing-hint panic), hint-bound checks,
the containment check (skipped when `does_prefill`), periodic expansion, and the
pairwise distance check. -/
def test_poisson {d : ℕ} (pulls : List (Point d × ℕ × Option ℕ)) (radius : ℚ)
    (ptype : PoissonType) (algo : Algo) (does_prefill : Bool) : Except (Failure d) Unit :=
  match collectLoop algo 0 pulls with
  | .error f => .error f
  | .ok (vecs, hints) =>
    match checkBounds algo hints.length 0 hints with
    | .error f => .error f
    | .ok () =>
      match (if does_prefill then Except.ok () else containment_check vecs) with
      | .error f => .error f
      | .ok () => assert_legal_poisson (expandForValidation d ptype vecs) radius algo

/-- The 16 prime multipliers of the seed-derivation loop in `test_algo`. -/
def primes : List ℕ := [3, 7, 13, 19, 29, 37, 43, 53, 61, 71, 79, 89, 101, 107, 113, 131]

/-- The 16 additive offsets of the seed-derivation loop in `test_algo`. -/
def offsets : List ℕ :=
  [2741, 2729, 2713, 2707, 2693, 2687, 2677, 2663, 2657, 2633, 2609, 2591, 2557, 2549, 2539, 2521]

/-- The 32-bit value `i * primes[j] + offsets[j]` computed (in `u32`) by the
seed loop of `test_algo` for run index `i` and byte position `j < 16`. -/
def seedWord (i j : ℕ) : ℕ := (i * primes.getD j 0 + offsets.getD j 0) % 2 ^ 32

/-- The 32-byte seed derived from run index `i` in `test_algo`: byte `j` is the
low byte of `seedWord i j` (`as u8`) and byte `j + 16` its second byte
(`(>> 8) as u8`), for `j < 16`. -/
def seedBytes (i : ℕ) : List ℕ :=
  (List.range 16).map (fun j => seedWord i j % 2 ^ 8)
    ++ (List.range 16).map (fun j => seedWord i j / 2 ^ 8 % 2 ^ 8)

/-- Modelled from the spec: the generation library (`poisson::Builder`, the
iterator returned by `.build(rand, algo).into_iter()`, and its operations
`stays_legal`, `restrict`, `next`, `radius`, `poisson_type`) is not among the
shown sources.  Following §4.1, an algorithm under test is an abstract state
machine over a state type `σ`: `stays_legal` is a pure query, `restrict` and
`next` are state transitions, and `radius` / `poisson_type` are stable across
the run (§4.2 step 5 requires the values read back after exhaustion to equal
those at construction). -/
structure PoissonIter (σ : Type) (d : ℕ) where
  stays_legal : σ → Point d → Bool
  restrict : σ → Point d → σ
  next : σ → Option (Point d × σ)
  radius : ℚ
  poisson_type : PoissonType

/-- Instrumentation of the driver loop: one entry per call the driver makes
into the algorithm under test. -/
inductive Event (d : ℕ) where
  | staysLegalCall (p : Point d) (res : Bool)
  | restrictCall (p : Point d)
  | nextCall (res : Option (Point d))
deriving DecidableEq

/-- The mutable locals of one `test_algo` run, excluding the prefiller closure
state: the generator state, `last`, `does_prefill`, the `prefilled` and
`poisson` vectors, plus the instrumentation trace. -/
structure CoreState (σ : Type) (d : ℕ) where
  iterSt : σ
  last : Option (Point d)
  does_prefill : Bool
  prefilled : List (Point d)
  poisson : List (Point d)
  events : List (Event d)
deriving DecidableEq

/-- The generation loop of `test_algo`.  Each step first calls the prefiller
closure on `last`; on `Some c` it runs the expectation assertion (calling
`stays_legal` only for `Always` / `Never`), records `c` and calls `restrict`;
on `None` it pulls `next` once, appending the point or ending the loop.  This
flattens the source's `loop { while .. ; if let .. }` into one recursion with
an identical call sequence.  `fuel` bounds the number of steps (the source
loop need not terminate for a pathological generator, §5); `none` means the
fuel ran out, `some (core, some f)` an assertion failure `f`, and
`some (core, none)` normal exhaustion. -/
def test_algo_loop {σ ρ : Type} {d : ℕ} (g : PoissonIter σ d)
    (prefill : ρ → Option (Point d) → Option (Point d) × ρ) (valid : When) (algo : Algo) :
    ℕ → ρ → CoreState σ d → Option (CoreState σ d × Option (Failure d))
  | 0, _, _ => none
  | fuel + 1, p, core =>
    match prefill p core.last with
    | (some c, p') =>
      match valid with
      | .Always =>
        let legal := g.stays_legal core.iterSt c
        let core' := { core with
                       does_prefill := true
                       events := core.events ++ [.staysLegalCall c legal] }
        if legal then
          test_algo_loop g prefill valid algo fuel p'
            { core' with
              prefilled := core'.prefilled ++ [c]
              iterSt := g.restrict core'.iterSt c
              events := core'.events ++ [.restrictCall c] }
        else some (core', some (.prefillRejected algo c))
      | .Never =>
        let legal := g.stays_legal core.iterSt c
        let core' := { core with
                       does_prefill := true
                       events := core.events ++ [.staysLegalCall c legal] }
        if legal then some (core', some (.prefillAccepted algo c core.last))
        else
          test_algo_loop g prefill valid algo fuel p'
            { core' with
              prefilled := core'.prefilled ++ [c]
              iterSt := g.restrict core'.iterSt c
              events := core'.events ++ [.restrictCall c] }
      | .Sometimes =>
        test_algo_loop g prefill valid algo fuel p'
          { core with
            does_prefill := true
            prefilled := core.prefilled ++ [c]
            iterSt := g.restrict core.iterSt c
            events := core.events ++ [.restrictCall c] }
    | (none, p') =>
      match g.next core.iterSt with
      | some (pp, st') =>
        test_algo_loop g prefill valid algo fuel p'
          { core with
            iterSt := st'
            last := some pp
            poisson := core.poisson ++ [pp]
            events := core.events ++ [.nextCall (some pp)] }
      | none => some ({ core with events := core.events ++ [.nextCall none] }, none)

/-- Outcome of one seed's check: the final loop state together with either a
prefill-assertion failure raised inside the loop or the verdict of
`test_poisson` on the collected output. -/
structure RunResult (σ : Type) (d : ℕ) where
  final : CoreState σ d
  outcome : Except (Failure d) Unit

/-- Modelled from the spec: the standard-library iterators are not among the
shown sources.  `test_algo` hands `test_poisson` the chain of two materialized
vectors (`poisson.into_iter().chain(prefilled_or_empty)`), whose `size_hint`
after the `n`-th of `len` pulls is the exact pair
`(len - (n+1), Some (len - (n+1)))` — `vec::IntoIter` is an exact-size
iterator and `Chain` adds the two exact hints. -/
def exactHintPulls {d : ℕ} : List (Point d) → List (Point d × ℕ × Option ℕ)
  | [] => []
  | x :: xs => (x, xs.length, some xs.length) :: exactHintPulls xs

/-- The initial loop state of one `test_algo` run. -/
def initCore {σ : Type} {d : ℕ} (s0 : σ) : CoreState σ d :=
  { iterSt := s0, last := none, does_prefill := false, prefilled := [], poisson := [], events := [] }

/-- One seed's check in `test_algo`: run the generation loop, then (on normal
exhaustion) read back `radius` and `poisson_type` and hand `test_poisson` the
collected output chained with the prefilled points (the latter only when the
expectation is `Always`), as the pull list of the chained
materialized-vector iterator. -/
def runSeed {σ ρ : Type} {d : ℕ} (g : PoissonIter σ d) (s0 : σ) (prefiller : ℚ → ρ)
    (prefillStep : ρ → Option (Point d) → Option (Point d) × ρ)
    (valid : When) (algo : Algo) (fuel : ℕ) : Option (RunResult σ d) :=
  match test_algo_loop g prefillStep valid algo fuel (prefiller g.radius) (initCore s0) with
  | none => none
  | some (final, some f) => some ⟨final, .error f⟩
  | some (final, none) =>
    some ⟨final,
      test_poisson
        (exactHintPulls
          (final.poisson ++ (match valid with | .Always => final.prefilled | _ => [])))
        g.radius g.poisson_type algo final.does_prefill⟩

/-- The seed loop of `test_algo`, starting at index `i` with `count` seeds left.
A run's assertion failure propagates as a panic: the loop stops and reports it.
The returned list records the seed indices whose checks were actually
performed; `none` propagates fuel exhaustion of a run. -/
def test_algo_seeds {σ ρ : Type} {d : ℕ} (genOfSeed : List ℕ → PoissonIter σ d × σ)
    (prefiller : ℚ → ρ) (prefillStep : ρ → Option (Point d) → Option (Point d) × ρ)
    (valid : When) (algo : Algo) (fuel : ℕ) :
    ℕ → ℕ → Option (Except (Failure d) Unit × List ℕ)
  | 0, _ => some (.ok (), [])
  | count + 1, i =>
    match runSeed (genOfSeed (seedBytes i)).1 (genOfSeed (seedBytes i)).2 prefiller
        prefillStep valid algo fuel with
    | none => none
    | some r =>
      match r.outcome with
      | .error f => some (.error f, [i])
      | .ok _ =>
        match test_algo_seeds genOfSeed prefiller prefillStep valid algo fuel count (i + 1) with
        | none => none
        | some (o, rest) => some (o, i :: rest)

/-- Embedding of `helper::test_algo`: for each seed index `i` in `[0, seeds)`,
derive the 32-byte seed, construct the algorithm under test from it
(`genOfSeed` stands for `Builder::with_samples(..).build(rand, algo)`, which is
not among the shown sources) and run that seed's check. -/
def test_algo {σ ρ : Type} {d : ℕ} (genOfSeed : List ℕ → PoissonIter σ d × σ)
    (prefiller : ℚ → ρ) (prefillStep : ρ → Option (Point d) → Option (Point d) × ρ)
    (valid : When) (algo : Algo) (fuel seeds : ℕ) :
    Option (Except (Failure d) Unit × List ℕ) :=
  test_algo_seeds genOfSeed prefiller prefillStep valid algo fuel seeds 0

/-- Embedding of `helper::test_with_samples_prefilled`: run `test_algo` for the
`Ebeida` family, then (if it did not panic) for the `Bridson` family.  The
returned list tags each performed seed check with its algorithm family. -/
def test_with_samples_prefilled {σ ρ : Type} {d : ℕ}
    (genFam : Algo → List ℕ → PoissonIter σ d × σ) (prefiller : ℚ → ρ)
    (prefillStep : ρ → Option (Point d) → Option (Point d) × ρ) (valid : When)
    (fuel seeds : ℕ) : Option (Except (Failure d) Unit × List (Algo × ℕ)) :=
  match test_algo (genFam .Ebeida) prefiller prefillStep valid .Ebeida fuel seeds with
  | none => none
  | some (.error f, l) => some (.error f, l.map (fun i => (.Ebeida, i)))
  | some (.ok _, l) =>
    match test_algo (genFam .Bridson) prefiller prefillStep valid .Bridson fuel seeds with
    | none => none
    | some (o, l2) =>
      some (o, l.map (fun i => (Algo.Ebeida, i)) ++ l2.map (fun i => (Algo.Bridson, i)))

/-- The prefiller `|_| |_| None` that `test_with_samples` passes to
`test_with_samples_prefilled`: stateless, radius ignored. -/
def noPrefiller : ℚ → Unit := fun _ => ()

/-- The per-run closure of `noPrefiller`: always yields nothing. -/
def noPrefillStep {d : ℕ} : Unit → Option (Point d) → Option (Point d) × Unit :=
  fun s _ => (none, s)

/-- Embedding of `helper::test_with_samples`: the prefill-free entry point is
literally the prefilled one with the always-`None` injector and expectation
`Always`. -/
def test_with_samples {σ : Type} {d : ℕ} (genFam : Algo → List ℕ → PoissonIter σ d × σ)
    (fuel seeds : ℕ) : Option (Except (Failure d) Unit × List (Algo × ℕ)) :=
  test_with_samples_prefilled genFam noPrefiller noPrefillStep .Always fuel seeds

/-- Recognizer for the three failures the size-hint audit can raise. -/
def isHintFailure {d : ℕ} : Failure d → Bool
  | .missingHint _ _ => true
  | .lowerBound _ _ _ => true
  | .upperBound _ _ _ => true
  | _ => false

/-- Recognizer for the two failures the containment check can raise. -/
def isContainmentFailure {d : ℕ} : Failure d → Bool
  | .outOfRangeLow _ _ => true
  | .outOfRangeHigh _ _ => true
  | _ => false

/-! ### Lemmas about the distance validator -/

lemma distSq_nonneg {d : ℕ} (v1 v2 : Point d) : 0 ≤ distSq v1 v2 :=
  Finset.sum_nonneg fun i _ => sq_nonneg _

lemma distSq_comm {d : ℕ} (v1 v2 : Point d) : distSq v1 v2 = distSq v2 v1 := by
  unfold distSq
  refine Finset.sum_congr rfl fun _i _ => ?_
  ring

/-- The executable comparison `norm_gt` decides exactly `b < sqrt q` for
nonnegative `q`. -/
lemma norm_gt_iff_sqrt (q b : ℚ) (hq : 0 ≤ q) :
    norm_gt q b = true ↔ (b : ℝ) < Real.sqrt (q : ℝ) := by
  have hq' : (0 : ℝ) ≤ (q : ℝ) := by exact_mod_cast hq
  rcases lt_or_le b 0 with hb | hb
  · have hb' : (b : ℝ) < 0 := by exact_mod_cast hb
    simp only [norm_gt, Bool.or_eq_true, decide_eq_true_eq]
    constructor
    · intro _
      exact hb'.trans_le (Real.sqrt_nonneg _)
    · intro _
      exact Or.inl hb
  · have hb' : (0 : ℝ) ≤ (b : ℝ) := by exact_mod_cast hb
    rw [Real.lt_sqrt hb']
    simp only [norm_gt, Bool.or_eq_true, decide_eq_true_eq]
    constructor
    · rintro (h | h)
      · exact absurd h (not_lt.mpr hb)
      · exact_mod_cast h
    · intro h
      exact Or.inr (by exact_mod_cast h)

lemma legal_inner_ok_iff {d : ℕ} (radius : ℚ) (algo : Algo) (v1 : Point d)
    (l : List (Point d)) :
    legal_inner radius algo v1 l = .ok () ↔
      ∀ v2 ∈ l, v1 ≠ v2 → norm_gt (distSq v1 v2) (radius * 2) = true := by
  induction l with
  | nil => simp [legal_inner]
  | cons v2 rest ih =>
    by_cases h : v1 = v2
    · subst h
      simp [legal_inner, ih]
    · by_cases hg : norm_gt (distSq v1 v2) (radius * 2) = true
      · simp [legal_inner, h, hg, ih]
      · simp only [legal_inner, if_neg h, if_pos, if_neg hg]
        constructor
        · intro hf
          exact absurd hf (by simp)
        · intro hall
          exact absurd (hall v2 (List.mem_cons_self _ _) h) hg

lemma legal_inner_error_shape {d : ℕ} (radius : ℚ) (algo : Algo) (v1 : Point d)
    (l : List (Point d)) (f : Failure d) :
    legal_inner radius algo v1 l = .error f →
      ∃ v2 ∈ l, v1 ≠ v2 ∧ norm_gt (distSq v1 v2) (radius * 2) = false ∧
        f = .distance algo (distSq v1 v2) (radius * 2) v1 v2 := by
  induction l with
  | nil => simp [legal_inner]
  | cons v2 rest ih =>
    by_cases h : v1 = v2
    · subst h
      simp only [legal_inner, if_pos rfl]
      intro hf
      exact (ih hf).imp fun v2 hv2 => ⟨List.mem_cons_of_mem _ hv2.1, hv2.2⟩
    · by_cases hg : norm_gt (distSq v1 v2) (radius * 2) = true
      · simp only [legal_inner, if_neg h, if_pos hg]
        exact fun hf => (ih hf).imp fun v2 hv2 => ⟨List.mem_cons_of_mem _ hv2.1, hv2.2⟩
      · simp only [legal_inner, if_neg h, if_neg hg]
        intro hf
        cases hf
        exact ⟨v2, List.mem_cons_self _ _, h, by simpa using hg, rfl⟩

lemma legal_outer_ok_iff {d : ℕ} (radius : ℚ) (algo : Algo) (all l : List (Point d)) :
    legal_outer radius algo all l = .ok () ↔
      ∀ v1 ∈ l, legal_inner radius algo v1 all = .ok () := by
  induction l with
  | nil => simp [legal_outer]
  | cons v1 rest ih =>
    cases h : legal_inner radius algo v1 all with
    | ok u =>
      cases u
      simp [legal_outer, h, ih]
    | error f => simp [legal_outer, h]

lemma legal_outer_error_shape {d : ℕ} (radius : ℚ) (algo : Algo) (all l : List (Point d))
    (f : Failure d) :
    legal_outer radius algo all l = .error f →
      ∃ v1 ∈ l, legal_inner radius algo v1 all = .error f := by
  induction l with
  | nil => simp [legal_outer]
  | cons v1 rest ih =>
    cases h : legal_inner radius algo v1 all with
    | ok u =>
      cases u
      simp only [legal_outer, h]
      exact fun hf => (ih hf).imp fun v hv => ⟨List.mem_cons_of_mem _ hv.1, hv.2⟩
    | error f2 =>
      simp only [legal_outer, h]
      intro hf
      cases hf
      exact ⟨v1, List.mem_cons_self _ _, h⟩

/-- The validator passes exactly when every ordered pair of unequal points is
separated by more than `radius * 2` (in the executable squared form). -/
lemma assert_legal_ok_iff {d : ℕ} (vecs : List (Point d)) (radius : ℚ) (algo : Algo) :
    assert_legal_poisson vecs radius algo = .ok () ↔
      ∀ v1 ∈ vecs, ∀ v2 ∈ vecs, v1 ≠ v2 →
        norm_gt (distSq v1 v2) (radius * 2) = true := by
  unfold assert_legal_poisson
  rw [legal_outer_ok_iff]
  constructor
  · intro h v1 hv1
    exact fun v2 hv2 => ((legal_inner_ok_iff radius algo v1 vecs).mp (h v1 hv1)) v2 hv2
  · intro h v1 hv1
    exact (legal_inner_ok_iff radius algo v1 vecs).mpr (h v1 hv1)

/-- C1: the Distance Validator passes iff every unordered pair of points with
non-identical coordinates is at Euclidean distance strictly greater than
`2 × radius`; on a violating pair it fails, reporting the measured distance (as
its exact square), the threshold `radius * 2`, and both offending points. -/
theorem distance_validator_correct {d : ℕ} (vecs : List (Point d)) (radius : ℚ)
    (algo : Algo) :
    (assert_legal_poisson vecs radius algo = .ok () ↔
      ∀ v1 ∈ vecs, ∀ v2 ∈ vecs, v1 ≠ v2 →
        (radius : ℝ) * 2 < Real.sqrt ((distSq v1 v2 : ℚ) : ℝ))
    ∧ (∀ f, assert_legal_poisson vecs radius algo = .error f →
        ∃ v1 ∈ vecs, ∃ v2 ∈ vecs, v1 ≠ v2 ∧
          ¬ ((radius : ℝ) * 2 < Real.sqrt ((distSq v1 v2 : ℚ) : ℝ)) ∧
          f = .distance algo (distSq v1 v2) (radius * 2) v1 v2) := by
  have hcast : ∀ v1 v2 : Point d,
      (norm_gt (distSq v1 v2) (radius * 2) = true ↔
        (radius : ℝ) * 2 < Real.sqrt ((distSq v1 v2 : ℚ) : ℝ)) := by
    intro v1 v2
    have := norm_gt_iff_sqrt (distSq v1 v2) (radius * 2) (distSq_nonneg v1 v2)
    rwa [show ((radius * 2 : ℚ) : ℝ) = (radius : ℝ) * 2 by push_cast; ring] at this
  constructor
  · rw [assert_legal_ok_iff]
    constructor
    · intro h v1 hv1 v2 hv2 hne
      exact (hcast v1 v2).mp (h v1 hv1 v2 hv2 hne)
    · intro h v1 hv1 v2 hv2 hne
      exact (hcast v1 v2).mpr (h v1 hv1 v2 hv2 hne)
  · intro f hf
    obtain ⟨v1, hv1, hinner⟩ := legal_outer_error_shape radius algo vecs vecs f hf
    obtain ⟨v2, hv2, hne, hlt, hshape⟩ :=
      legal_inner_error_shape radius algo v1 vecs f hinner
    refine ⟨v1, hv1, v2, hv2, hne, ?_, hshape⟩
    intro hcon
    rw [← hcast v1 v2] at hcon
    simp [hcon] at hlt

/-- Witness for C1 at a concrete input. -/
theorem distance_validator_correct_witness :
    assert_legal_poisson ([fun _ => 0] : List (Point 1)) 1 .Ebeida = .ok () :=
  (distance_validator_correct _ _ _).1.mpr (by simp)

/-- C4 counterexample: a list containing the same point twice (two distinct
original entries with identical coordinates) passes the validator, because the
equal-points skip applies to them. -/
theorem coincident_points_pass_validator :
    assert_legal_poisson ([fun _ => 0, fun _ => 0] : List (Point 1)) 1 .Ebeida = .ok () := by
  rfl

/-- C4 amended: equal-coordinate pairs are skipped unconditionally, so a
coincidence between two distinct entries never by itself causes a failure: the
validator's verdict on a list with a duplicated point is the same as on the
list with a single copy. -/
theorem duplicate_point_skipped {d : ℕ} (p : Point d) (vecs : List (Point d))
    (radius : ℚ) (algo : Algo) :
    (assert_legal_poisson (p :: p :: vecs) radius algo = .ok () ↔
      assert_legal_poisson (p :: vecs) radius algo = .ok ()) := by
  have hmem : ∀ v : Point d, v ∈ p :: p :: vecs ↔ v ∈ p :: vecs := by
    intro v
    simp only [List.mem_cons]
    tauto
  rw [assert_legal_ok_iff, assert_legal_ok_iff]
  constructor
  · intro h v1 hv1 v2 hv2
    exact h v1 ((hmem v1).mpr hv1) v2 ((hmem v2).mpr hv2)
  · intro h v1 hv1 v2 hv2
    exact h v1 ((hmem v1).mp hv1) v2 ((hmem v2).mp hv2)

/-! ### Lemmas about seed derivation -/

lemma map_range_congr (f g : ℕ → ℕ) (n k : ℕ) (hk : k < n)
    (h : (List.range n).map f = (List.range n).map g) : f k = g k := by
  have h1 := congrArg (fun l : List ℕ => l[k]?) h
  simp only [List.getElem?_map, List.getElem?_range hk] at h1
  simpa using h1

/-- Equality of the derived seeds forces equality of each underlying 32-bit
word modulo `2^16` (the two bytes stored per word are its low 16 bits). -/
lemma seedBytes_eq_mod_2_16 (i i' : ℕ) (h : seedBytes i = seedBytes i') (j : ℕ)
    (hj : j < 16) : seedWord i j % 2 ^ 16 = seedWord i' j % 2 ^ 16 := by
  unfold seedBytes at h
  have hlen : ((List.range 16).map (fun j => seedWord i j % 2 ^ 8)).length
      = ((List.range 16).map (fun j => seedWord i' j % 2 ^ 8)).length := by simp
  obtain ⟨hlow, hhigh⟩ := List.append_inj h hlen
  have h1 : seedWord i j % 2 ^ 8 = seedWord i' j % 2 ^ 8 :=
    map_range_congr _ _ 16 j hj hlow
  have h2 : seedWord i j / 2 ^ 8 % 2 ^ 8 = seedWord i' j / 2 ^ 8 % 2 ^ 8 :=
    map_range_congr _ _ 16 j hj hhigh
  have e : ∀ m : ℕ, m % 2 ^ 16 = m % 2 ^ 8 + 2 ^ 8 * (m / 2 ^ 8 % 2 ^ 8) := by
    intro m
    have hm : m % (2 ^ 8 * 2 ^ 8) = m % 2 ^ 8 + 2 ^ 8 * (m / 2 ^ 8 % 2 ^ 8) := Nat.mod_mul
    calc m % 2 ^ 16 = m % (2 ^ 8 * 2 ^ 8) := by norm_num
    _ = m % 2 ^ 8 + 2 ^ 8 * (m / 2 ^ 8 % 2 ^ 8) := hm
  rw [e, e, h1, h2]

set_option maxRecDepth 8192 in
/-- C7 counterexample: the distinct run indices `0` and `65536` derive
byte-for-byte identical 32-byte seeds (each seed byte only depends on the run
index modulo `2^16`), so a driver invoked with `seeds ≥ 65537` repeats a random
stream. -/
theorem seed_collision_at_65536 :
    seedBytes 0 = seedBytes 65536 ∧ (0 : ℕ) ≠ 65536 := by
  constructor
  · decide
  · decide

/-- C7 amended: the 32-byte seed is a deterministic function of the run index
`i` alone, derived via a distinct prime-multiplier/offset pair for each of the
16 word positions (each pair feeding two byte positions), and any two run
indices that are distinct and below `2^16` derive distinct seeds; distinctness
for all indices in `[0, seeds)` holds only when `seeds ≤ 65536`. -/
theorem seed_injective_below_65536 (i i' : ℕ) (hi : i < 65536) (hi' : i' < 65536)
    (hne : i ≠ i') : seedBytes i ≠ seedBytes i' := by
  intro h
  have hw := seedBytes_eq_mod_2_16 i i' h 0 (by norm_num)
  unfold seedWord at hw
  have hp : primes.getD 0 0 = 3 := rfl
  have ho : offsets.getD 0 0 = 2741 := rfl
  rw [hp, ho] at hw
  have hbound : i * 3 + 2741 < 2 ^ 32 := by omega
  have hbound' : i' * 3 + 2741 < 2 ^ 32 := by omega
  rw [Nat.mod_eq_of_lt hbound, Nat.mod_eq_of_lt hbound'] at hw
  have hmeq : Nat.ModEq (2 ^ 16) (3 * i + 2741) (3 * i' + 2741) := by
    have : Nat.ModEq (2 ^ 16) (i * 3 + 2741) (i' * 3 + 2741) := hw
    calc (3 * i + 2741) ≡ i * 3 + 2741 [MOD 2 ^ 16] := by rw [Nat.mul_comm]
    _ ≡ i' * 3 + 2741 [MOD 2 ^ 16] := this
    _ ≡ 3 * i' + 2741 [MOD 2 ^ 16] := by rw [Nat.mul_comm]
  have h3 : Nat.ModEq (2 ^ 16) (3 * i) (3 * i') := Nat.ModEq.add_right_cancel' 2741 hmeq
  have hii : Nat.ModEq (2 ^ 16) i i' :=
    Nat.ModEq.cancel_left_of_coprime (by norm_num) h3
  have : i % 2 ^ 16 = i' % 2 ^ 16 := hii
  norm_num at this
  omega

/-- Witness for the amended C7 at concrete distinct indices. -/
theorem seed_injective_below_65536_witness : seedBytes 0 ≠ seedBytes 1 :=
  seed_injective_below_65536 0 1 (by norm_num) (by norm_num) (by norm_num)

/-! ### Lemmas about the periodic tiler -/

lemma base3_sum_lt (d : ℕ) (a : ℕ → ℕ) (ha : ∀ i < d, a i < 3) :
    (∑ i ∈ Finset.range d, a i * 3 ^ i) < 3 ^ d := by
  induction d with
  | zero => simp
  | succ d ih =>
    rw [Finset.sum_range_succ]
    have h1 : (∑ i ∈ Finset.range d, a i * 3 ^ i) < 3 ^ d :=
      ih fun i hi => ha i (by omega)
    have h2 : a d * 3 ^ d ≤ 2 * 3 ^ d :=
      Nat.mul_le_mul_right _ (by have := ha d (by omega); omega)
    have h3 : 3 ^ (d + 1) = 3 ^ d + 2 * 3 ^ d := by ring
    omega

lemma base3_sum_digit (d : ℕ) (a : ℕ → ℕ) (ha : ∀ i < d, a i < 3) (j : ℕ) (hj : j < d) :
    (∑ i ∈ Finset.range d, a i * 3 ^ i) / 3 ^ j % 3 = a j := by
  have hsplit : (∑ i ∈ Finset.range d, a i * 3 ^ i)
      = (∑ i ∈ Finset.range j, a i * 3 ^ i)
        + ∑ i ∈ Finset.range (d - j), a (j + i) * 3 ^ (j + i) := by
    have h1 : (∑ i ∈ Finset.range j, a i * 3 ^ i) + ∑ i ∈ Finset.Ico j d, a i * 3 ^ i
        = ∑ i ∈ Finset.range d, a i * 3 ^ i := by
      simp only [Finset.range_eq_Ico]
      exact Finset.sum_Ico_consecutive (fun i => a i * 3 ^ i) (Nat.zero_le j) (le_of_lt hj)
    have h2 : (∑ i ∈ Finset.Ico j d, a i * 3 ^ i)
        = ∑ i ∈ Finset.range (d - j), a (j + i) * 3 ^ (j + i) :=
      Finset.sum_Ico_eq_sum_range (fun i => a i * 3 ^ i) j d
    rw [← h1, h2]
  have hM : (∑ i ∈ Finset.range (d - j), a (j + i) * 3 ^ (j + i))
      = 3 ^ j * ∑ i ∈ Finset.range (d - j), a (j + i) * 3 ^ i := by
    rw [Finset.mul_sum]
    refine Finset.sum_congr rfl fun i _ => ?_
    rw [pow_add]
    ring
  have hL : (∑ i ∈ Finset.range j, a i * 3 ^ i) < 3 ^ j :=
    base3_sum_lt j a fun i hi => ha i (by omega)
  rw [hsplit, hM, Nat.add_mul_div_left _ _ (by positivity), Nat.div_eq_of_lt hL,
    Nat.zero_add]
  obtain ⟨k, hk⟩ : ∃ k, d - j = k + 1 := ⟨d - j - 1, by omega⟩
  rw [hk, Finset.sum_range_succ']
  have h3 : (∑ i ∈ Finset.range k, a (j + (i + 1)) * 3 ^ (i + 1))
      = 3 * ∑ i ∈ Finset.range k, a (j + (i + 1)) * 3 ^ i := by
    rw [Finset.mul_sum]
    refine Finset.sum_congr rfl fun i _ => ?_
    ring
  rw [h3]
  simp [Nat.mul_add_mod, Nat.mod_eq_of_lt (ha j hj)]

/-- Every component of every tiling offset vector lies in `{-1, 0, 1}`. -/
lemma tileOffset_component (d n : ℕ) (i : Fin d) :
    tileOffset d n i = -1 ∨ tileOffset d n i = 0 ∨ tileOffset d n i = 1 := by
  unfold tileOffset
  have h : n / 3 ^ (i : ℕ) % 3 < 3 := Nat.mod_lt _ (by norm_num)
  have h3 : n / 3 ^ (i : ℕ) % 3 = 0 ∨ n / 3 ^ (i : ℕ) % 3 = 1
      ∨ n / 3 ^ (i : ℕ) % 3 = 2 := by omega
  rcases h3 with h0 | h1 | h2
  · rw [h0]
    norm_num
  · rw [h1]
    norm_num
  · rw [h2]
    norm_num

/-- C5: under `Perioditic` the set handed to the validator is exactly the
collected points translated by every one of the `3^d` offset vectors with
components in `{-1, 0, 1}` (one full unit per axis), each original point
contributing `3^d` copies; under `Normal` (Bounded) it is the original set. -/
theorem periodic_tiler_characterization (d : ℕ) (vecs : List (Point d)) :
    (expandForValidation d .Perioditic vecs).length = 3 ^ d * vecs.length
    ∧ (∀ x : Point d, x ∈ expandForValidation d .Perioditic vecs ↔
        ∃ v ∈ vecs, ∃ t : Point d, (∀ i, t i = -1 ∨ t i = 0 ∨ t i = 1) ∧ x = v + t)
    ∧ expandForValidation d .Normal vecs = vecs := by
  refine ⟨?_, ?_, rfl⟩
  · show (tile d vecs).length = 3 ^ d * vecs.length
    unfold tile
    rw [List.length_flatMap]
    have : List.map (List.length ∘ fun n => vecs.map fun v => v + tileOffset d n)
        (List.range (3 ^ d)) = List.map (fun _ => vecs.length) (List.range (3 ^ d)) := by
      refine List.map_congr_left fun n _ => ?_
      simp
    rw [this, List.map_const', List.sum_replicate, List.length_range, smul_eq_mul]
  · intro x
    show x ∈ tile d vecs ↔ _
    unfold tile
    rw [List.mem_flatMap]
    constructor
    · rintro ⟨n, hn, hx⟩
      rw [List.mem_map] at hx
      obtain ⟨v, hv, rfl⟩ := hx
      exact ⟨v, hv, tileOffset d n, fun i => tileOffset_component d n i, rfl⟩
    · rintro ⟨v, hv, t, ht, rfl⟩
      classical
      let a : ℕ → ℕ := fun k =>
        if h : k < d then (if t ⟨k, h⟩ = -1 then 0 else if t ⟨k, h⟩ = 0 then 1 else 2) else 0
      have ha : ∀ k < d, a k < 3 := by
        intro k hk
        simp only [a, dif_pos hk]
        by_cases h1 : t ⟨k, hk⟩ = -1
        · rw [if_pos h1]
          omega
        · rw [if_neg h1]
          by_cases h2 : t ⟨k, hk⟩ = 0
          · rw [if_pos h2]
            omega
          · rw [if_neg h2]
            omega
      refine ⟨∑ k ∈ Finset.range d, a k * 3 ^ k, ?_, ?_⟩
      · rw [List.mem_range]
        exact base3_sum_lt d a ha
      · rw [List.mem_map]
        refine ⟨v, hv, ?_⟩
        have htile : tileOffset d (∑ k ∈ Finset.range d, a k * 3 ^ k) = t := by
          funext i
          unfold tileOffset
          rw [base3_sum_digit d a ha (i : ℕ) i.isLt]
          have hai : a (i : ℕ) = if t i = -1 then 0 else if t i = 0 then 1 else 2 := by
            simp only [a, dif_pos i.isLt]
          rcases ht i with h | h | h
          · rw [hai, h]
            norm_num
          · rw [hai, h]
            norm_num
          · rw [hai, h]
            norm_num
        rw [htile]

/-- Witness for C5 at a concrete input: a single 1-dimensional point expands to
its three tiled copies. -/
theorem periodic_tiler_characterization_witness :
    (expandForValidation 1 .Perioditic [fun _ => 0]).length = 3 ^ 1 * 1 :=
  (periodic_tiler_characterization 1 [fun _ => 0]).1

/-! ### Lemmas about the size-hint audit -/

/-- The points `collectLoop` accumulates (first components of the pulls). -/
def pullPoints {d : ℕ} (pulls : List (Point d × ℕ × Option ℕ)) : List (Point d) :=
  pulls.map fun p => p.1

/-- The hint pairs `collectLoop` accumulates when no upper bound is missing. -/
def pullHints {d : ℕ} (pulls : List (Point d × ℕ × Option ℕ)) : List (ℕ × ℕ) :=
  pulls.map fun p => (p.2.1, p.2.2.getD 0)

lemma pullHints_length {d : ℕ} (pulls : List (Point d × ℕ × Option ℕ)) :
    (pullHints pulls).length = pulls.length := by
  simp [pullHints]

lemma collectLoop_all_some {d : ℕ} (algo : Algo) (k : ℕ)
    (pulls : List (Point d × ℕ × Option ℕ))
    (h : ∀ p ∈ pulls, (p.2.2).isSome = true) :
    collectLoop algo k pulls = .ok (pullPoints pulls, pullHints pulls) := by
  induction pulls generalizing k with
  | nil => rfl
  | cons p rest ih =>
    obtain ⟨v, low, high⟩ := p
    cases high with
    | none => simpa using h _ (List.mem_cons_self _ _)
    | some u =>
      rw [collectLoop, ih (k + 1) fun p hp => h p (List.mem_cons_of_mem _ hp)]
      simp [pullPoints, pullHints]

lemma collectLoop_error_of_missing {d : ℕ} (algo : Algo) (k : ℕ)
    (pulls : List (Point d × ℕ × Option ℕ))
    (h : ¬ ∀ p ∈ pulls, (p.2.2).isSome = true) :
    ∃ m, collectLoop algo k pulls = .error (.missingHint algo m) := by
  induction pulls generalizing k with
  | nil => simp at h
  | cons p rest ih =>
    obtain ⟨v, low, high⟩ := p
    cases high with
    | none => exact ⟨k, rfl⟩
    | some u =>
      have hrest : ¬ ∀ p ∈ rest, (p.2.2).isSome = true := by
        intro hall
        refine h fun p hp => ?_
        rcases List.mem_cons.mp hp with h1 | h1
        · rw [h1]
          rfl
        · exact hall p h1
      obtain ⟨m, hm⟩ := ih (k + 1) hrest
      refine ⟨m, ?_⟩
      rw [collectLoop, hm]

lemma collectLoop_missing {d : ℕ} (algo : Algo) (k : ℕ)
    (pre rest : List (Point d × ℕ × Option ℕ)) (v : Point d) (low : ℕ)
    (hpre : ∀ p ∈ pre, (p.2.2).isSome = true) :
    collectLoop algo k (pre ++ (v, low, none) :: rest)
      = .error (.missingHint algo (k + pre.length)) := by
  induction pre generalizing k with
  | nil => simp [collectLoop]
  | cons p pre ih =>
    obtain ⟨v', low', high'⟩ := p
    cases high' with
    | none =>
      have := hpre _ (List.mem_cons_self _ _)
      simp at this
    | some u =>
      rw [List.cons_append, collectLoop,
        ih (k + 1) fun p hp => hpre p (List.mem_cons_of_mem _ hp)]
      have harith : k + 1 + pre.length = k + (pre.length + 1) := by omega
      simp [harith]

lemma checkBounds_ok_iff {d : ℕ} (algo : Algo) (len : ℕ) (hints : List (ℕ × ℕ)) (n : ℕ) :
    @checkBounds d algo len n hints = .ok () ↔
      ∀ m (hm : m < hints.length),
        hints[m].1 ≤ len - (n + m + 1) ∧ len - (n + m + 1) ≤ hints[m].2 := by
  induction hints generalizing n with
  | nil => simp [checkBounds]
  | cons ph rest ih =>
    obtain ⟨low, high⟩ := ph
    constructor
    · intro hok m hm
      rw [checkBounds] at hok
      by_cases h1 : low ≤ len - (n + 1)
      · rw [if_pos h1] at hok
        by_cases h2 : len - (n + 1) ≤ high
        · rw [if_pos h2] at hok
          match m with
          | 0 =>
            constructor
            · simpa using h1
            · simpa using h2
          | m + 1 =>
            have hm' : m < rest.length := by simpa using hm
            have := ((ih (n + 1)).mp hok) m hm'
            constructor
            · have harith : len - (n + 1 + m + 1) = len - (n + (m + 1) + 1) := by omega
              simpa [harith] using this.1
            · have harith : len - (n + 1 + m + 1) = len - (n + (m + 1) + 1) := by omega
              simpa [harith] using this.2
        · rw [if_neg h2] at hok
          cases hok
      · rw [if_neg h1] at hok
        cases hok
    · intro hall
      have h0 := hall 0 (by simp)
      simp only [List.getElem_cons_zero] at h0
      rw [checkBounds, if_pos (by simpa using h0.1), if_pos (by simpa using h0.2)]
      refine (ih (n + 1)).mpr fun m hm => ?_
      have := hall (m + 1) (by simpa using hm)
      simp only [List.getElem_cons_succ] at this
      have harith : len - (n + (m + 1) + 1) = len - (n + 1 + m + 1) := by omega
      constructor
      · simpa [harith] using this.1
      · simpa [harith] using this.2

/-- The size-hint audit passes exactly when every pull reports an upper bound
and every recorded pair brackets the true remaining count. -/
lemma sizeHintAudit_ok_iff {d : ℕ} (pulls : List (Point d × ℕ × Option ℕ)) (algo : Algo) :
    sizeHintAudit pulls algo = .ok () ↔
      (∀ p ∈ pulls, (p.2.2).isSome = true)
      ∧ ∀ n (hn : n < pulls.length),
          pulls[n].2.1 ≤ pulls.length - (n + 1)
          ∧ ∀ u, pulls[n].2.2 = some u → pulls.length - (n + 1) ≤ u := by
  by_cases hall : ∀ p ∈ pulls, (p.2.2).isSome = true
  · rw [sizeHintAudit, collectLoop_all_some algo 0 pulls hall]
    have hlen : (pullHints pulls).length = pulls.length := pullHints_length pulls
    rw [checkBounds_ok_iff]
    constructor
    · intro h
      refine ⟨hall, fun n hn => ?_⟩
      have hn' : n < (pullHints pulls).length := by rwa [hlen]
      have hthis := h n hn'
      simp only [pullHints, List.getElem_map, List.length_map] at hthis
      refine ⟨by simpa using hthis.1, fun u hu => ?_⟩
      have h2 := hthis.2
      rw [hu] at h2
      simpa using h2
    · intro h m hm
      obtain ⟨hsome, hbounds⟩ := h
      have hm' : m < pulls.length := by rwa [hlen] at hm
      have hthis := hbounds m hm'
      simp only [pullHints, List.getElem_map, List.length_map]
      refine ⟨by simpa using hthis.1, ?_⟩
      obtain ⟨u, hu⟩ := Option.isSome_iff_exists.mp (hsome _ (List.getElem_mem hm'))
      rw [hu]
      simpa using hthis.2 u hu
  · constructor
    · intro h
      obtain ⟨m, hm⟩ := collectLoop_error_of_missing algo 0 pulls hall
      rw [sizeHintAudit, hm] at h
      cases h
    · intro h
      exact absurd h.1 hall

/-- C2: the Size-Hint Auditor fails iff some pull violates `lower ≤ remaining`
or `upper ≥ remaining` for `remaining = len - (n+1)`; a pull with no upper
bound at all fails immediately, naming the element's 0-based position and the
algorithm. -/
theorem size_hint_auditor_correct {d : ℕ} (pulls : List (Point d × ℕ × Option ℕ))
    (algo : Algo) :
    (sizeHintAudit pulls algo = .ok () ↔
      (∀ p ∈ pulls, (p.2.2).isSome = true)
      ∧ ∀ n (hn : n < pulls.length),
          pulls[n].2.1 ≤ pulls.length - (n + 1)
          ∧ ∀ u, pulls[n].2.2 = some u → pulls.length - (n + 1) ≤ u)
    ∧ (∀ pre rest (v : Point d) (low : ℕ),
        pulls = pre ++ (v, low, none) :: rest →
        (∀ p ∈ pre, (p.2.2).isSome = true) →
        sizeHintAudit pulls algo = .error (.missingHint algo pre.length)) := by
  refine ⟨sizeHintAudit_ok_iff pulls algo, ?_⟩
  rintro pre rest v low rfl hpre
  rw [sizeHintAudit, collectLoop_missing algo 0 pre rest v low hpre, Nat.zero_add]

/-- Witness for C2 at a concrete input: a single pull with the exact hint
`(0, some 0)` passes the audit. -/
theorem size_hint_auditor_correct_witness :
    sizeHintAudit ([(fun _ => 0, 0, some 0)] : List (Point 1 × ℕ × Option ℕ)) .Ebeida = .ok () :=
  (size_hint_auditor_correct _ _).1.mpr (by
    refine ⟨by simp, fun n hn => ?_⟩
    have hn1 : n = 0 := by simpa using hn
    subst hn1
    refine ⟨by simp, fun u hu => ?_⟩
    simp)

/-! ### Exact hints of the chained materialized vectors -/

lemma exactHintPulls_all_some {d : ℕ} (l : List (Point d)) :
    ∀ p ∈ exactHintPulls l, (p.2.2).isSome = true := by
  induction l with
  | nil => simp [exactHintPulls]
  | cons x xs ih =>
    intro p hp
    rcases List.mem_cons.mp hp with h | h
    · subst h
      rfl
    · exact ih p h

lemma exactHintPulls_length {d : ℕ} (l : List (Point d)) :
    (exactHintPulls l).length = l.length := by
  induction l with
  | nil => rfl
  | cons x xs ih => simp [exactHintPulls, ih]

lemma checkBounds_exact {d : ℕ} (algo : Algo) (l : List (Point d)) (n len : ℕ)
    (hlen : len = n + l.length) :
    @checkBounds d algo len n (pullHints (exactHintPulls l)) = .ok () := by
  induction l generalizing n with
  | nil => simp [exactHintPulls, pullHints, checkBounds]
  | cons x xs ih =>
    simp only [List.length_cons] at hlen
    show checkBounds algo len n ((xs.length, xs.length) :: pullHints (exactHintPulls xs))
        = .ok ()
    simp only [checkBounds]
    rw [if_pos (by omega), if_pos (by omega)]
    exact ih (n + 1) (by omega)

/-- The size-hint audit always passes on the exact hints of a materialized
list. -/
lemma sizeHintAudit_exact {d : ℕ} (l : List (Point d)) (algo : Algo) :
    sizeHintAudit (exactHintPulls l) algo = .ok () := by
  rw [sizeHintAudit, collectLoop_all_some algo 0 _ (exactHintPulls_all_some l)]
  exact checkBounds_exact algo l 0 _ (by rw [pullHints_length, exactHintPulls_length]; omega)

/-! ### Failure shapes of the individual checks -/

lemma containment_point_error_shape {d : ℕ} (v : Point d) (l : List (Fin d))
    (f : Failure d) (h : containment_point v l = .error f) :
    isContainmentFailure f = true := by
  induction l with
  | nil => cases h
  | cons n rest ih =>
    rw [containment_point] at h
    by_cases h1 : 0 ≤ v n
    · rw [if_pos h1] at h
      by_cases h2 : v n < 1
      · rw [if_pos h2] at h
        exact ih h
      · rw [if_neg h2] at h
        cases h
        rfl
    · rw [if_neg h1] at h
      cases h
      rfl

lemma containment_check_error_shape {d : ℕ} (vecs : List (Point d)) (f : Failure d)
    (h : containment_check vecs = .error f) : isContainmentFailure f = true := by
  induction vecs with
  | nil => cases h
  | cons v rest ih =>
    rw [containment_check] at h
    cases hcp : containment_point v (List.finRange d) with
    | ok u =>
      cases u
      rw [hcp] at h
      exact ih h
    | error f2 =>
      rw [hcp] at h
      cases h
      exact containment_point_error_shape v _ _ hcp

lemma assert_legal_error_distance {d : ℕ} (vecs : List (Point d)) (radius : ℚ)
    (algo : Algo) (f : Failure d) (h : assert_legal_poisson vecs radius algo = .error f) :
    isHintFailure f = false ∧ isContainmentFailure f = false := by
  obtain ⟨v1, hv1, hinner⟩ := legal_outer_error_shape radius algo vecs vecs f h
  obtain ⟨v2, hv2, hne, hng, hshape⟩ := legal_inner_error_shape radius algo v1 vecs f hinner
  rw [hshape]
  exact ⟨rfl, rfl⟩

/-- A failure of `test_poisson` on exact hints is never a hint failure. -/
lemma test_poisson_exact_failure_shape {d : ℕ} (l : List (Point d)) (radius : ℚ)
    (ptype : PoissonType) (algo : Algo) (dp : Bool) (f : Failure d)
    (h : test_poisson (exactHintPulls l) radius ptype algo dp = .error f) :
    isHintFailure f = false := by
  rw [test_poisson] at h
  split at h
  · rename_i f1 heq
    rw [collectLoop_all_some algo 0 _ (exactHintPulls_all_some l)] at heq
    cases heq
  · rename_i vecs hints heq
    rw [collectLoop_all_some algo 0 _ (exactHintPulls_all_some l)] at heq
    simp only [Except.ok.injEq, Prod.mk.injEq] at heq
    obtain ⟨hv, hh⟩ := heq
    subst hv
    subst hh
    split at h
    · rename_i f2 heq2
      rw [checkBounds_exact algo l 0 _
        (by rw [pullHints_length, exactHintPulls_length]; omega)] at heq2
      cases heq2
    · split at h
      · rename_i f3 heq3
        simp only [Except.error.injEq] at h
        subst h
        cases dp with
        | true =>
          rw [if_pos rfl] at heq3
          cases heq3
        | false =>
          rw [if_neg (by simp)] at heq3
          have hcf := containment_check_error_shape _ _ heq3
          cases f3 <;> simp_all [isContainmentFailure, isHintFailure]
      · exact (assert_legal_error_distance _ _ _ _ h).1

/-- A failure raised inside the generation loop is a prefill-expectation
failure. -/
lemma test_algo_loop_failure_shape {σ ρ : Type} {d : ℕ} (g : PoissonIter σ d)
    (prefill : ρ → Option (Point d) → Option (Point d) × ρ) (valid : When) (algo : Algo) :
    ∀ (fuel : ℕ) (p : ρ) (core core' : CoreState σ d) (f : Failure d),
      test_algo_loop g prefill valid algo fuel p core = some (core', some f) →
      isHintFailure f = false ∧ isContainmentFailure f = false := by
  intro fuel
  induction fuel with
  | zero =>
    intro p core core' f h
    cases h
  | succ fuel ih =>
    intro p core core' f h
    rw [test_algo_loop] at h
    rcases hpf : prefill p core.last with ⟨copt, p'⟩
    rw [hpf] at h
    cases copt with
    | none =>
      dsimp only at h
      cases hnx : g.next core.iterSt with
      | some pr =>
        obtain ⟨pp, st'⟩ := pr
        rw [hnx] at h
        dsimp only at h
        exact ih _ _ _ _ h
      | none =>
        rw [hnx] at h
        dsimp only at h
        simp only [Option.some.injEq, Prod.mk.injEq] at h
        obtain ⟨h1, h2⟩ := h
        cases h2
    | some c =>
      dsimp only at h
      cases valid with
      | Always =>
        dsimp only at h
        by_cases hl : g.stays_legal core.iterSt c = true
        · rw [if_pos hl] at h
          exact ih _ _ _ _ h
        · rw [if_neg hl] at h
          simp only [Option.some.injEq, Prod.mk.injEq] at h
          obtain ⟨h1, h2⟩ := h
          cases h2
          exact ⟨rfl, rfl⟩
      | Never =>
        dsimp only at h
        by_cases hl : g.stays_legal core.iterSt c = true
        · rw [if_pos hl] at h
          simp only [Option.some.injEq, Prod.mk.injEq] at h
          obtain ⟨h1, h2⟩ := h
          cases h2
          exact ⟨rfl, rfl⟩
        · rw [if_neg hl] at h
          exact ih _ _ _ _ h
      | Sometimes =>
        dsimp only at h
        exact ih _ _ _ _ h

/-- C3: the iterator whose hints the auditor inspects inside a driver run is
the chain of two materialized vectors with exact size hints, so the audit
passes for every list, and no driver-initiated run can fail with a hint
failure, whatever hints the generator itself reported. -/
theorem driver_hint_audit_unreachable {d : ℕ} (algo : Algo) :
    (∀ l : List (Point d), sizeHintAudit (exactHintPulls l) algo = .ok ())
    ∧ (∀ (σ ρ : Type) (g : PoissonIter σ d) (s0 : σ) (prefiller : ℚ → ρ)
        (prefillStep : ρ → Option (Point d) → Option (Point d) × ρ) (valid : When)
        (fuel : ℕ) (r : RunResult σ d) (f : Failure d),
        runSeed g s0 prefiller prefillStep valid algo fuel = some r →
        r.outcome = .error f → isHintFailure f = false) := by
  refine ⟨fun l => sizeHintAudit_exact l algo, ?_⟩
  intro σ ρ g s0 prefiller prefillStep valid fuel r f hrun houtcome
  rw [runSeed] at hrun
  cases hloop : test_algo_loop g prefillStep valid algo fuel (prefiller g.radius)
      (initCore s0) with
  | none =>
    rw [hloop] at hrun
    cases hrun
  | some res =>
    obtain ⟨final, ff⟩ := res
    cases ff with
    | some f2 =>
      rw [hloop] at hrun
      simp only [Option.some.injEq] at hrun
      subst hrun
      simp only at houtcome
      cases houtcome
      exact (test_algo_loop_failure_shape g prefillStep valid algo fuel _ _ _ _ hloop).1
    | none =>
      rw [hloop] at hrun
      simp only [Option.some.injEq] at hrun
      subst hrun
      simp only at houtcome
      exact test_poisson_exact_failure_shape _ _ _ _ _ _ houtcome

/-- Witness for C3 at a concrete list. -/
theorem driver_hint_audit_unreachable_witness :
    sizeHintAudit (exactHintPulls ([fun _ => 0] : List (Point 1))) .Ebeida = .ok () :=
  (driver_hint_audit_unreachable .Ebeida).1 [fun _ => 0]

/-! ### Lemmas about the containment check -/

lemma containment_point_ok_iff {d : ℕ} (v : Point d) (l : List (Fin d)) :
    containment_point v l = .ok () ↔ ∀ n ∈ l, 0 ≤ v n ∧ v n < 1 := by
  induction l with
  | nil => simp [containment_point]
  | cons n rest ih =>
    rw [containment_point]
    by_cases h1 : 0 ≤ v n
    · rw [if_pos h1]
      by_cases h2 : v n < 1
      · rw [if_pos h2, ih]
        constructor
        · intro hall m hm
          rcases List.mem_cons.mp hm with h | h
          · subst h
            exact ⟨h1, h2⟩
          · exact hall m h
        · intro hall m hm
          exact hall m (List.mem_cons_of_mem _ hm)
      · rw [if_neg h2]
        constructor
        · intro hf
          cases hf
        · intro hall
          exact absurd (hall n (List.mem_cons_self _ _)).2 h2
    · rw [if_neg h1]
      constructor
      · intro hf
        cases hf
      · intro hall
        exact absurd (hall n (List.mem_cons_self _ _)).1 h1

lemma containment_check_ok_iff {d : ℕ} (vecs : List (Point d)) :
    containment_check vecs = .ok () ↔ ∀ v ∈ vecs, ∀ n : Fin d, 0 ≤ v n ∧ v n < 1 := by
  induction vecs with
  | nil => simp [containment_check]
  | cons v rest ih =>
    rw [containment_check]
    cases hcp : containment_point v (List.finRange d) with
    | ok u =>
      cases u
      dsimp only
      rw [ih]
      have hv : ∀ n : Fin d, 0 ≤ v n ∧ v n < 1 := by
        intro n
        exact (containment_point_ok_iff v (List.finRange d)).mp hcp n (List.mem_finRange n)
      constructor
      · intro hall w hw
        rcases List.mem_cons.mp hw with h | h
        · subst h
          exact hv
        · exact hall w h
      · intro hall w hw
        exact hall w (List.mem_cons_of_mem _ hw)
    | error f =>
      dsimp only
      constructor
      · intro hf
        cases hf
      · intro hall
        have : containment_point v (List.finRange d) = .ok () :=
          (containment_point_ok_iff v (List.finRange d)).mpr
            fun n _ => hall v (List.mem_cons_self _ _) n
        rw [this] at hcp
        cases hcp

lemma collectLoop_ok_shape {d : ℕ} (algo : Algo) (k : ℕ)
    (pulls : List (Point d × ℕ × Option ℕ)) (vecs : List (Point d))
    (hints : List (ℕ × ℕ)) (h : collectLoop algo k pulls = .ok (vecs, hints)) :
    vecs = pullPoints pulls ∧ hints = pullHints pulls
      ∧ ∀ p ∈ pulls, (p.2.2).isSome = true := by
  by_cases hall : ∀ p ∈ pulls, (p.2.2).isSome = true
  · rw [collectLoop_all_some algo k pulls hall] at h
    simp only [Except.ok.injEq, Prod.mk.injEq] at h
    exact ⟨h.1.symm, h.2.symm, hall⟩
  · obtain ⟨m, hm⟩ := collectLoop_error_of_missing algo k pulls hall
    rw [hm] at h
    cases h

lemma collectLoop_error_shape {d : ℕ} (algo : Algo) (k : ℕ)
    (pulls : List (Point d × ℕ × Option ℕ)) (f : Failure d)
    (h : collectLoop algo k pulls = .error f) : ∃ m, f = .missingHint algo m := by
  induction pulls generalizing k with
  | nil => cases h
  | cons p rest ih =>
    obtain ⟨v, low, high⟩ := p
    cases high with
    | none =>
      rw [collectLoop] at h
      cases h
      exact ⟨k, rfl⟩
    | some u =>
      rw [collectLoop] at h
      cases hr : collectLoop algo (k + 1) rest with
      | ok pr =>
        rw [hr] at h
        obtain ⟨vs, hs⟩ := pr
        cases h
      | error f2 =>
        rw [hr] at h
        cases h
        exact ih (k + 1) hr

lemma checkBounds_error_shape {d : ℕ} (algo : Algo) (len n : ℕ) (hints : List (ℕ × ℕ))
    (f : Failure d) (h : checkBounds algo len n hints = .error f) :
    (∃ a b, f = .lowerBound algo a b) ∨ ∃ a b, f = .upperBound algo a b := by
  induction hints generalizing n with
  | nil => cases h
  | cons ph rest ih =>
    obtain ⟨low, high⟩ := ph
    rw [checkBounds] at h
    by_cases h1 : low ≤ len - (n + 1)
    · rw [if_pos h1] at h
      by_cases h2 : len - (n + 1) ≤ high
      · rw [if_pos h2] at h
        exact ih (n + 1) h
      · rw [if_neg h2] at h
        cases h
        exact Or.inr ⟨high, len - (n + 1), rfl⟩
    · rw [if_neg h1] at h
      cases h
      exact Or.inl ⟨low, len - (n + 1), rfl⟩

/-- When a run with `does_prefill = false` passes `test_poisson`, every
collected point lies in the unit box on every axis (whatever the domain
type). -/
lemma test_poisson_ok_containment {d : ℕ} (pulls : List (Point d × ℕ × Option ℕ))
    (radius : ℚ) (ptype : PoissonType) (algo : Algo)
    (h : test_poisson pulls radius ptype algo false = .ok ()) :
    ∀ v ∈ pullPoints pulls, ∀ n : Fin d, 0 ≤ v n ∧ v n < 1 := by
  rw [test_poisson] at h
  split at h
  · cases h
  · rename_i vecs hints heq
    obtain ⟨hv, hh, hall⟩ := collectLoop_ok_shape algo 0 pulls vecs hints heq
    subst hv
    split at h
    · cases h
    · rw [if_neg (by simp)] at h
      cases hcc : containment_check (pullPoints pulls) with
      | ok u =>
        cases u
        exact fun v hv n => (containment_check_ok_iff (pullPoints pulls)).mp hcc v hv n
      | error f2 =>
        rw [hcc] at h
        cases h

/-- C6: under the Bounded domain with no prefilling, every collected point is
asserted to lie in `[0, 1)` on every axis and the run fails when one does not;
when the run used prefilling the in-range check is not asserted (no failure of
a prefilled run is a containment failure). -/
theorem bounded_containment_check {d : ℕ} (pulls : List (Point d × ℕ × Option ℕ))
    (radius : ℚ) (algo : Algo) :
    (test_poisson pulls radius .Normal algo false = .ok () →
      ∀ v ∈ pullPoints pulls, ∀ n : Fin d, 0 ≤ v n ∧ v n < 1)
    ∧ ((∃ v ∈ pullPoints pulls, ∃ n : Fin d, v n < 0 ∨ 1 ≤ v n) →
      test_poisson pulls radius .Normal algo false ≠ .ok ())
    ∧ (∀ (ptype : PoissonType) (f : Failure d),
        test_poisson pulls radius ptype algo true = .error f →
        isContainmentFailure f = false) := by
  refine ⟨fun h => test_poisson_ok_containment pulls radius .Normal algo h, ?_, ?_⟩
  · rintro ⟨v, hv, n, hn⟩ h
    have := test_poisson_ok_containment pulls radius .Normal algo h v hv n
    rcases hn with hn | hn
    · exact absurd this.1 (by linarith)
    · exact absurd this.2 (by linarith)
  · intro ptype f h
    rw [test_poisson] at h
    split at h
    · rename_i f1 heq
      simp only [Except.error.injEq] at h
      subst h
      obtain ⟨m, hm⟩ := collectLoop_error_shape algo 0 pulls f1 heq
      rw [hm]
      rfl
    · rename_i vecs hints heq
      split at h
      · rename_i f2 heq2
        simp only [Except.error.injEq] at h
        subst h
        rcases checkBounds_error_shape algo hints.length 0 hints f2 heq2 with
          ⟨a, b, hf⟩ | ⟨a, b, hf⟩
        · rw [hf]
          rfl
        · rw [hf]
          rfl
      · rw [if_pos rfl] at h
        dsimp only at h
        exact (assert_legal_error_distance _ _ _ _ h).2

/-- Witness for C6: a run whose single collected point has the out-of-range
coordinate `2` cannot pass. -/
theorem bounded_containment_check_witness :
    test_poisson ([(fun _ => 2, 0, some 0)] : List (Point 1 × ℕ × Option ℕ)) 1 .Normal
      .Ebeida false ≠ .ok () :=
  (bounded_containment_check _ 1 .Ebeida).2.1
    ⟨fun _ => 2, by simp [pullPoints], 0, Or.inr (by norm_num)⟩

/-- C10: the in-range check applies to every collected point of a
non-prefilled run regardless of the domain type: under `Perioditic` an
out-of-range point still fails the run, with a containment failure (raised
before tiling and distance validation), and a passing `Perioditic` run has all
its collected points inside the unit box. -/
theorem containment_regardless_of_domain {d : ℕ} (pulls : List (Point d × ℕ × Option ℕ))
    (radius : ℚ) (algo : Algo) :
    (∀ vecs hints, collectLoop algo 0 pulls = .ok (vecs, hints) →
      @checkBounds d algo hints.length 0 hints = .ok () →
      (∃ v ∈ vecs, ∃ n : Fin d, v n < 0 ∨ 1 ≤ v n) →
      ∃ f, test_poisson pulls radius .Perioditic algo false = .error f ∧
        isContainmentFailure f = true)
    ∧ (test_poisson pulls radius .Perioditic algo false = .ok () →
      ∀ v ∈ pullPoints pulls, ∀ n : Fin d, 0 ≤ v n ∧ v n < 1) := by
  constructor
  · intro vecs hints hcollect hbounds hbad
    rw [test_poisson, hcollect]
    dsimp only
    rw [hbounds]
    dsimp only
    rw [if_neg (by simp)]
    cases hcc : containment_check vecs with
    | ok u =>
      cases u
      obtain ⟨v, hv, n, hn⟩ := hbad
      have := (containment_check_ok_iff vecs).mp hcc v hv n
      rcases hn with hn | hn
      · exact absurd this.1 (by linarith)
      · exact absurd this.2 (by linarith)
    | error f =>
      exact ⟨f, rfl, containment_check_error_shape vecs f hcc⟩
  · exact fun h => test_poisson_ok_containment pulls radius .Perioditic algo h

/-- Witness for C10: a non-prefilled Periodic run containing the out-of-range
point `2` fails with a containment failure. -/
theorem containment_regardless_of_domain_witness :
    ∃ f, test_poisson ([(fun _ => 2, 0, some 0)] : List (Point 1 × ℕ × Option ℕ)) 1
        .Perioditic .Ebeida false = .error f ∧ isContainmentFailure f = true :=
  (containment_regardless_of_domain _ 1 .Ebeida).1 [fun _ => 2] [(0, 0)] (by rfl) (by rfl)
    ⟨fun _ => 2, by simp, 0, Or.inr (by norm_num)⟩

/-! ### The driver with an always-empty injector -/

/-- Recognizer for the instrumentation events that touch the algorithm's
injection interface (`stays_legal` queries and `restrict` mutations). -/
def Event.isLegalityCall {d : ℕ} : Event d → Bool
  | .staysLegalCall _ _ => true
  | .restrictCall _ => true
  | .nextCall _ => false

/-- With an injector that always yields nothing, the generation loop behaves
exactly like the loop of the canonical `|_| |_| None` injector, whatever the
injector's internal state does. -/
lemma test_algo_loop_none_injector {σ ρ : Type} {d : ℕ} (g : PoissonIter σ d)
    (prefill : ρ → Option (Point d) → Option (Point d) × ρ)
    (hnone : ∀ s v, (prefill s v).1 = none) (valid : When) (algo : Algo) :
    ∀ (fuel : ℕ) (p : ρ) (core : CoreState σ d),
      test_algo_loop g prefill valid algo fuel p core
        = test_algo_loop g noPrefillStep valid algo fuel () core := by
  intro fuel
  induction fuel with
  | zero =>
    intro p core
    rfl
  | succ fuel ih =>
    intro p core
    have hcopt := hnone p core.last
    rcases hpf : prefill p core.last with ⟨copt, p'⟩
    rw [hpf] at hcopt
    dsimp only at hcopt
    subst hcopt
    rw [test_algo_loop, test_algo_loop, hpf]
    dsimp only [noPrefillStep]
    cases hnx : g.next core.iterSt with
    | some pr =>
      obtain ⟨pp, st'⟩ := pr
      dsimp only
      exact ih _ _
    | none =>
      dsimp only

/-- With an injector that always yields nothing the loop never sets
`does_prefill`, never records a prefilled point and never calls `stays_legal`
or `restrict`. -/
lemma test_algo_loop_none_artifacts {σ ρ : Type} {d : ℕ} (g : PoissonIter σ d)
    (prefill : ρ → Option (Point d) → Option (Point d) × ρ)
    (hnone : ∀ s v, (prefill s v).1 = none) (valid : When) (algo : Algo) :
    ∀ (fuel : ℕ) (p : ρ) (core core' : CoreState σ d) (res : Option (Failure d)),
      test_algo_loop g prefill valid algo fuel p core = some (core', res) →
      core.does_prefill = false → core.prefilled = [] →
      (∀ e ∈ core.events, Event.isLegalityCall e = false) →
      core'.does_prefill = false ∧ core'.prefilled = [] ∧
        ∀ e ∈ core'.events, Event.isLegalityCall e = false := by
  intro fuel
  induction fuel with
  | zero =>
    intro p core core' res h
    cases h
  | succ fuel ih =>
    intro p core core' res h hdp hpre hev
    have hcopt := hnone p core.last
    rcases hpf : prefill p core.last with ⟨copt, p'⟩
    rw [hpf] at hcopt
    dsimp only at hcopt
    subst hcopt
    rw [test_algo_loop, hpf] at h
    dsimp only at h
    cases hnx : g.next core.iterSt with
    | some pr =>
      obtain ⟨pp, st'⟩ := pr
      rw [hnx] at h
      dsimp only at h
      refine ih _ _ _ _ h hdp hpre ?_
      intro e he
      rcases List.mem_append.mp he with he | he
      · exact hev e he
      · rcases List.mem_singleton.mp he with rfl
        rfl
    | none =>
      rw [hnx] at h
      dsimp only at h
      simp only [Option.some.injEq, Prod.mk.injEq] at h
      obtain ⟨h1, h2⟩ := h
      subst h1
      refine ⟨hdp, hpre, ?_⟩
      intro e he
      rcases List.mem_append.mp he with he | he
      · exact hev e he
      · rcases List.mem_singleton.mp he with rfl
        rfl

/-- C9: for every seed's check, a Prefill Injector that always returns nothing
produces a run identical to the canonical no-injector run of
`test_with_samples` — the same loop outcome, collected points and hint pulls —
with `stays_legal` and `restrict` never called, the prefilled list empty, and
`does_prefill` still false. -/
theorem noop_injector_identical_run {σ ρ : Type} {d : ℕ} (g : PoissonIter σ d) (s0 : σ)
    (prefiller : ℚ → ρ) (prefillStep : ρ → Option (Point d) → Option (Point d) × ρ)
    (valid : When) (algo : Algo) (fuel : ℕ)
    (hnone : ∀ s v, (prefillStep s v).1 = none) :
    runSeed g s0 prefiller prefillStep valid algo fuel
      = runSeed g s0 noPrefiller noPrefillStep valid algo fuel
    ∧ ∀ r, runSeed g s0 prefiller prefillStep valid algo fuel = some r →
        r.final.prefilled = [] ∧ r.final.does_prefill = false ∧
        ∀ e ∈ r.final.events, Event.isLegalityCall e = false := by
  constructor
  · rw [runSeed, runSeed,
      test_algo_loop_none_injector g prefillStep hnone valid algo fuel (prefiller g.radius)
        (initCore s0)]
  · intro r hr
    rw [runSeed] at hr
    cases hloop : test_algo_loop g prefillStep valid algo fuel (prefiller g.radius)
        (initCore s0) with
    | none =>
      rw [hloop] at hr
      cases hr
    | some res =>
      obtain ⟨final, ff⟩ := res
      have hart := test_algo_loop_none_artifacts g prefillStep hnone valid algo fuel
        (prefiller g.radius) (initCore s0) final ff hloop rfl rfl (by simp [initCore])
      cases ff with
      | some f2 =>
        rw [hloop] at hr
        simp only [Option.some.injEq] at hr
        subst hr
        exact ⟨hart.2.1, hart.1, hart.2.2⟩
      | none =>
        rw [hloop] at hr
        simp only [Option.some.injEq] at hr
        subst hr
        exact ⟨hart.2.1, hart.1, hart.2.2⟩

/-- A generator used as a concrete driver instance: it emits one point and
stops; `stays_legal` always holds. -/
def oneShotGen : PoissonIter Bool 1 :=
  { stays_legal := fun _ _ => true
    restrict := fun s _ => s
    next := fun s => if s then none else some (fun _ => 1 / 2, true)
    radius := 1
    poisson_type := .Normal }

/-- A stateful injector that always returns nothing while mutating its
counter. -/
def countingStep : ℕ → Option (Point 1) → Option (Point 1) × ℕ := fun s _ => (none, s + 1)

/-- Witness for C9 at a concrete generator, fuel and stateful empty injector. -/
theorem noop_injector_identical_run_witness :
    runSeed oneShotGen false (fun _ => 0) countingStep .Always .Ebeida 3
      = runSeed oneShotGen false noPrefiller noPrefillStep .Always .Ebeida 3 :=
  (noop_injector_identical_run oneShotGen false (fun _ => 0) countingStep .Always .Ebeida 3
    fun _ _ => rfl).1

/-! ### Panic propagation through the seed loop -/

/-- If the runs of seed indices `start, ..., start + i - 1` succeed and the run
of seed index `start + i` fails with `f`, the seed loop stops at `start + i`:
it reports `f` and the seeds actually checked are exactly
`start, ..., start + i`. -/
lemma test_algo_seeds_stops {σ ρ : Type} {d : ℕ} (genOfSeed : List ℕ → PoissonIter σ d × σ)
    (prefiller : ℚ → ρ) (prefillStep : ρ → Option (Point d) → Option (Point d) × ρ)
    (valid : When) (algo : Algo) (fuel : ℕ) (f : Failure d) :
    ∀ (i count start : ℕ), i < count →
      (∀ j, j < i → ∃ r, runSeed (genOfSeed (seedBytes (start + j))).1
          (genOfSeed (seedBytes (start + j))).2 prefiller prefillStep valid algo fuel
          = some r ∧ r.outcome = .ok ()) →
      (∃ r, runSeed (genOfSeed (seedBytes (start + i))).1
          (genOfSeed (seedBytes (start + i))).2 prefiller prefillStep valid algo fuel
          = some r ∧ r.outcome = .error f) →
      test_algo_seeds genOfSeed prefiller prefillStep valid algo fuel count start
        = some (.error f, List.range' start (i + 1)) := by
  intro i
  induction i with
  | zero =>
    intro count start hcount hok hfail
    obtain ⟨c, rfl⟩ : ∃ c, count = c + 1 := ⟨count - 1, by omega⟩
    obtain ⟨r, hr, hout⟩ := hfail
    rw [Nat.add_zero] at hr
    rw [test_algo_seeds, hr]
    dsimp only
    rw [hout]
    rfl
  | succ i ih =>
    intro count start hcount hok hfail
    obtain ⟨c, rfl⟩ : ∃ c, count = c + 1 := ⟨count - 1, by omega⟩
    obtain ⟨r0, hr0, hout0⟩ := hok 0 (by omega)
    rw [Nat.add_zero] at hr0
    rw [test_algo_seeds, hr0]
    dsimp only
    rw [hout0]
    have hok' : ∀ j, j < i → ∃ r, runSeed (genOfSeed (seedBytes (start + 1 + j))).1
        (genOfSeed (seedBytes (start + 1 + j))).2 prefiller prefillStep valid algo fuel
        = some r ∧ r.outcome = .ok () := by
      intro j hj
      have harith : start + 1 + j = start + (j + 1) := by omega
      rw [harith]
      exact hok (j + 1) (by omega)
    have hfail' : ∃ r, runSeed (genOfSeed (seedBytes (start + 1 + i))).1
        (genOfSeed (seedBytes (start + 1 + i))).2 prefiller prefillStep valid algo fuel
        = some r ∧ r.outcome = .error f := by
      have harith : start + 1 + i = start + (i + 1) := by omega
      rw [harith]
      exact hfail
    rw [ih c (start + 1) (by omega) hok' hfail']
    rfl

/-- C8 amended: an assertion failure in one seed's check propagates as a panic
through the whole driver invocation: the failure is reported, unsuppressed and
unretried, and no check is performed for any later seed index — nor, when the
failure occurs in the `Ebeida` pass of `test_with_samples_prefilled`, for the
other algorithm family. -/
theorem failure_aborts_driver {σ ρ : Type} {d : ℕ}
    (genFam : Algo → List ℕ → PoissonIter σ d × σ) (prefiller : ℚ → ρ)
    (prefillStep : ρ → Option (Point d) → Option (Point d) × ρ) (valid : When)
    (fuel seeds i : ℕ) (f : Failure d) (hi : i < seeds)
    (hok : ∀ j, j < i → ∃ r, runSeed (genFam .Ebeida (seedBytes j)).1
        (genFam .Ebeida (seedBytes j)).2 prefiller prefillStep valid .Ebeida fuel
        = some r ∧ r.outcome = .ok ())
    (hfail : ∃ r, runSeed (genFam .Ebeida (seedBytes i)).1
        (genFam .Ebeida (seedBytes i)).2 prefiller prefillStep valid .Ebeida fuel
        = some r ∧ r.outcome = .error f) :
    test_algo (genFam .Ebeida) prefiller prefillStep valid .Ebeida fuel seeds
      = some (.error f, List.range (i + 1))
    ∧ test_with_samples_prefilled genFam prefiller prefillStep valid fuel seeds
      = some (.error f, (List.range (i + 1)).map fun k => (Algo.Ebeida, k)) := by
  have hok0 : ∀ j, j < i → ∃ r, runSeed (genFam .Ebeida (seedBytes (0 + j))).1
      (genFam .Ebeida (seedBytes (0 + j))).2 prefiller prefillStep valid .Ebeida fuel
      = some r ∧ r.outcome = .ok () := by
    intro j hj
    rw [Nat.zero_add]
    exact hok j hj
  have hfail0 : ∃ r, runSeed (genFam .Ebeida (seedBytes (0 + i))).1
      (genFam .Ebeida (seedBytes (0 + i))).2 prefiller prefillStep valid .Ebeida fuel
      = some r ∧ r.outcome = .error f := by
    rw [Nat.zero_add]
    exact hfail
  have hmain : test_algo (genFam .Ebeida) prefiller prefillStep valid .Ebeida fuel seeds
      = some (.error f, List.range (i + 1)) := by
    rw [test_algo,
      test_algo_seeds_stops (genFam .Ebeida) prefiller prefillStep valid .Ebeida fuel f i
        seeds 0 hi hok0 hfail0, List.range_eq_range']
  refine ⟨hmain, ?_⟩
  rw [test_with_samples_prefilled, hmain]

/-- A generator that immediately reports exhaustion and whose `stays_legal`
is constantly false (concrete driver instance for the abort behaviour). -/
def emptyRejectingGen : PoissonIter Unit 1 :=
  { stays_legal := fun _ _ => false
    restrict := fun s _ => s
    next := fun _ => none
    radius := 1
    poisson_type := .Normal }

/-- An injector state machine that injects the origin once and then stops. -/
def injectOnceStep : Bool → Option (Point 1) → Option (Point 1) × Bool :=
  fun s _ => if s then (none, s) else (some (fun _ => 0), true)

/-- C8 counterexample: with `seeds = 2` and a run that fails its prefill
assertion at seed index 0, the driver reports that failure and the list of
seed indices actually checked is `[0]` — the check for seed index 1 is never
performed, contradicting the claim that every later seed is still checked. -/
theorem failure_aborts_driver_counterexample :
    test_algo (fun _ => (emptyRejectingGen, ())) (fun _ => false) injectOnceStep
        .Always .Ebeida 2 2
      = some (.error (.prefillRejected .Ebeida (fun _ => 0)), [0])
    ∧ (1 : ℕ) ∉ ([0] : List ℕ) := by
  constructor
  · rfl
  · decide

/-- Witness for the amended C8 at the same concrete instance, via the general
theorem. -/
theorem failure_aborts_driver_witness :
    test_algo ((fun _ _ => (emptyRejectingGen, ())) Algo.Ebeida) (fun _ => false)
        injectOnceStep .Always .Ebeida 2 2
      = some (.error (.prefillRejected .Ebeida (fun _ => 0)), List.range 1) :=
  (failure_aborts_driver (fun _ _ => (emptyRejectingGen, ())) (fun _ => false) injectOnceStep
    .Always 2 2 0 (.prefillRejected .Ebeida (fun _ => 0)) (by omega)
    (fun j hj => absurd hj (by omega)) ⟨_, rfl, rfl⟩).1
